import Mathlib

/-!
Shallow embedding of `s3bk/glyphmatcher` (`src/lib.rs`) for checking the
natural-language specification against the code.

Modelling conventions:
* `f32` coordinates are modelled as rationals (`ℚ`); every finite `f32` value
  is a rational, and the Rust cast `as u16` (truncate toward zero, saturate
  to `0 ..= 65535`) is modelled exactly by `quantize`.
* `pathfinder_content::outline::Contour` is a list of its points
  (`c.points()`), and `Outline` a list of contours (`outline.contours()`);
  `Outline::len()` is the number of contours.
* `HashMap`/`HashSet` are modelled by association lists with unique keys /
  `Finset`s.  Where the Rust code iterates over a `HashMap` (whose iteration
  order is unspecified and randomized per instance), the model takes the
  iteration order as an explicit parameter, quantified over all permutations
  of the canonical key list.
* The optional `&mut String` report of `ShapeDb::get` is modelled as an
  always-collected list of structured `TraceEvent`s, one per `writeln!` in
  the source.
-/

namespace GlyphMatcher

/-- The Rust cast `f : f32 as u16`: truncate toward zero, saturating to
`0 ..= 65535`.  For `x < 0` truncation-then-saturation gives `0`, which is
also `Int.toNat ⌊x⌋`; for `x ≥ 0` truncation is `⌊x⌋`. -/
def quantize (x : ℚ) : ℕ := min 65535 (Int.toNat ⌊x⌋)

/-- Integer part of a rational obtained by dropping the fractional part
(truncation toward zero), used to state the quantization claims. -/
def intPart (x : ℚ) : ℤ := if 0 ≤ x then ⌊x⌋ else ⌈x⌉

/-- A point of a contour, before quantization: `(p.x(), p.y())`. -/
abbrev RPoint := ℚ × ℚ

/-- A quantized point: `(p.x() as u16, p.y() as u16)`. -/
abbrev QPoint := ℕ × ℕ

/-- Models `let key = (p.x() as u16, p.y() as u16);`. -/
def quantizeP (p : RPoint) : QPoint := (quantize p.1, quantize p.2)

/-- A contour, as the list of its points. -/
abbrev RContour := List RPoint

/-- An outline, as the list of its contours. -/
abbrev ROutline := List RContour

/-- Models `fn points_set(contour: &Contour) -> HashSet<(u16, u16)>`. -/
def points_set (contour : RContour) : Finset QPoint :=
  (contour.map quantizeP).toFinset

/-- Models `pub struct ShapeDb<I>`: `entries` is the insertion-ordered entry list,
`points` the inverted index `HashMap<(u16, u16), Vec<usize>>` modelled as an
association list with unique keys. -/
structure ShapeDb (I : Type) where
  entries : List (I × List (Finset QPoint))
  points : List (QPoint × List ℕ)
deriving DecidableEq

/-- Models `ShapeDb::new()`. -/
def ShapeDb.new (I : Type) : ShapeDb I := ⟨[], []⟩

/-- Models `self.points.entry(key).or_default().push(val_idx)`: append `idx` to the
vector stored under `key`, creating an empty vector first if absent. -/
def pushIdx (key : QPoint) (idx : ℕ) : List (QPoint × List ℕ) → List (QPoint × List ℕ)
  | [] => [(key, [idx])]
  | (k, l) :: rest =>
      if k = key then (k, l ++ [idx]) :: rest else (k, l) :: pushIdx key idx rest

/-- The point-insertion loop of `add_outline`: walk all points of the outline
in order, and for each quantized key not seen before in this outline, push
`val_idx` onto the inverted index entry for that key. -/
def insertPoints (idx : ℕ) : List (QPoint × List ℕ) → Finset QPoint → List RPoint →
    List (QPoint × List ℕ)
  | pts, _, [] => pts
  | pts, seen, p :: rest =>
      let key := quantizeP p
      if key ∈ seen then insertPoints idx pts seen rest
      else insertPoints idx (pushIdx key idx pts) (insert key seen) rest

/-- Models `pub fn add_outline(&mut self, outline: Outline, value: I)`. -/
def ShapeDb.add_outline {I : Type} (db : ShapeDb I) (outline : ROutline) (value : I) :
    ShapeDb I :=
  { entries := db.entries ++ [(value, outline.map points_set)]
    points := insertPoints db.entries.length db.points ∅ outline.flatten }

/-- A database built by a sequence of `add_outline` calls starting from
`ShapeDb::new()`. -/
def buildDb {I : Type} (ps : List (ROutline × I)) : ShapeDb I :=
  ps.foldl (fun db p => db.add_outline p.1 p.2) (ShapeDb.new I)

/-- The deduplicated quantized point keys of the query outline, in first-seen
order (the `points_seen` `HashSet` of `get`). -/
def dedupKeys (seen : Finset QPoint) : List RPoint → List QPoint
  | [] => []
  | p :: rest =>
      let key := quantizeP p
      if key ∈ seen then dedupKeys seen rest
      else key :: dedupKeys (insert key seen) rest

/-- All distinct quantized keys of a query outline, in first-seen order. -/
def queryKeys (outline : ROutline) : List QPoint := dedupKeys ∅ outline.flatten

/-- Models `HashMap::get` on an association list: the value under the first (and,
by construction, only) matching key. -/
def lookupA {α β : Type} [DecidableEq α] (k : α) : List (α × β) → Option β
  | [] => none
  | (k2, v) :: rest => if k2 = k then some v else lookupA k rest

/-- Models `self.points.get(&key)`, defaulting to no candidates when absent. -/
def lookupPts (pts : List (QPoint × List ℕ)) (key : QPoint) : List ℕ :=
  (lookupA key pts).getD []

/-- The hit counter accumulated for entry `idx` by the candidate loop of
`get`: one increment per occurrence of `idx` under a distinct query key. -/
def hitCount {I : Type} (db : ShapeDb I) (outline : ROutline) (idx : ℕ) : ℕ :=
  ((queryKeys outline).map (fun k => (lookupPts db.points k).count idx)).sum

/-- The set of entry indices receiving at least one hit (the key set of the
`candiates: HashMap<usize, usize>`), in a canonical first-touched order. -/
def candIdxs {I : Type} (db : ShapeDb I) (outline : ROutline) : List ℕ :=
  ((queryKeys outline).flatMap (fun k => lookupPts db.points k)).dedup

/-- The canonical listing of the candidate map `(index, hit count)`.  The
Rust `HashMap` iterates these pairs in an unspecified order; model theorems
quantify over all permutations of this list. -/
def canonicalCandidates {I : Type} (db : ShapeDb I) (outline : ROutline) : List (ℕ × ℕ) :=
  (candIdxs db outline).map (fun i => (i, hitCount db outline i))

/-- One structured record per `writeln!` into the diagnostic report of
`ShapeDb::get`. -/
inductive TraceEvent (I : Type) where
  | candidate : I → TraceEvent I
  | contourCountMismatch : ℕ → ℕ → TraceEvent I
  | pointsMismatch : ℕ → ℕ → TraceEvent I
  | summary : I → List Bool → TraceEvent I
deriving DecidableEq

/-- The inner loop of the contour-pairing step for one query contour
signature `ts`: walk the stored contours with their `used` flags in order;
skip used ones; mark a not-yet-used stored contour used when `ts` equals its
signature (the loop does not stop there); otherwise record the mismatch
diagnostic `|ts \ rs|` of `|ts|`. -/
def markContour (ts : Finset QPoint) :
    List (Finset QPoint × Bool) → List (Finset QPoint × Bool) × List (TraceEvent I)
  | [] => ([], [])
  | (rs, u) :: rest =>
      let r := markContour ts rest
      if u then ((rs, u) :: r.1, r.2)
      else if ts = rs then ((rs, true) :: r.1, r.2)
      else ((rs, u) :: r.1, TraceEvent.pointsMismatch ((ts \ rs).card) ts.card :: r.2)

/-- The full contour-pairing step: fold `markContour` over the query
contours' signatures in order, accumulating the trace. -/
def runPairing (qsigs : List (Finset QPoint)) (stored : List (Finset QPoint × Bool)) :
    List (Finset QPoint × Bool) × List (TraceEvent I) :=
  match qsigs with
  | [] => (stored, [])
  | ts :: rest =>
      let s := markContour ts stored
      let r := runPairing rest s.1
      (r.1, s.2 ++ r.2)

/-- The candidate scan of `get`: try each candidate `(idx, _)` in the given
order; reject on contour-count mismatch; otherwise run the pairing step and
return this entry's value as soon as every stored contour is marked used.
An index outside `entries` (a `panic` in Rust) is unreachable for databases
built by `add_outline`; the model returns no match there. -/
def scanCandidates {I : Type} [DecidableEq I] (db : ShapeDb I) (outline : ROutline) :
    List (ℕ × ℕ) → Option I × List (TraceEvent I)
  | [] => (none, [])
  | (idx, _) :: rest =>
      match db.entries.get? idx with
      | none => (none, [])
      | some (s, contours) =>
          if contours.length ≠ outline.length then
            let r := scanCandidates db outline rest
            (r.1, TraceEvent.candidate s ::
              TraceEvent.contourCountMismatch contours.length outline.length :: r.2)
          else
            let pr := runPairing (outline.map points_set) (contours.map (fun c => (c, false)))
            let used := pr.1.map (fun t => t.2)
            if used.all (fun b => b) then
              (some s, TraceEvent.candidate s :: pr.2 ++ [TraceEvent.summary s used])
            else
              let r := scanCandidates db outline rest
              (r.1, TraceEvent.candidate s :: pr.2 ++ TraceEvent.summary s used :: r.2)

/-- Models `candiates.sort_by_key(|t| t.1)` (a stable sort, ascending in the hit
count) followed by the reversed iteration `candiates.iter().rev()`.  Rust's
`sort_by_key` is stable; a stable ascending sort is extensionally unique, and
insertion sort with `a.2 ≤ b.2` (which keeps ties in input order) computes
exactly that. -/
def sortCandidates (cand : List (ℕ × ℕ)) : List (ℕ × ℕ) :=
  (cand.insertionSort (fun a b => a.2 ≤ b.2)).reverse

/-- Models `pub fn get(&self, outline: &Outline, report) -> Option<&I>`, with the
iteration order of the candidate `HashMap` supplied as the list `cand`. -/
def ShapeDb.getWithOrder {I : Type} [DecidableEq I] (db : ShapeDb I) (outline : ROutline)
    (cand : List (ℕ × ℕ)) : Option I × List (TraceEvent I) :=
  scanCandidates db outline (sortCandidates cand)

/-- The run of `ShapeDb::get` with the canonical candidate order (one admissible
`HashMap` iteration order). -/
def ShapeDb.get {I : Type} [DecidableEq I] (db : ShapeDb I) (outline : ROutline) :
    Option I × List (TraceEvent I) :=
  db.getWithOrder outline (canonicalCandidates db outline)

/-! ### The contour pairing as the specification claims it

Modelled from the spec: a greedy one-pass assignment in which each query
contour claims exactly the *first* not-yet-used stored contour whose point
set equals its own (at most one claim per query contour).  This differs from
the source, whose inner loop has no `break` and keeps marking every further
equal stored contour.  The definitions below exist only to be compared with
the source-derived `runPairing`. -/

/-- The claimed inner loop: stop at the first unused exact match. -/
def markContourClaimed (ts : Finset QPoint) :
    List (Finset QPoint × Bool) → List (Finset QPoint × Bool)
  | [] => []
  | (rs, u) :: rest =>
      if u then (rs, u) :: markContourClaimed ts rest
      else if ts = rs then (rs, true) :: rest
      else (rs, u) :: markContourClaimed ts rest

/-- The claimed pairing step: fold the claimed inner loop over the query
contours' signatures. -/
def runPairingClaimed (qsigs : List (Finset QPoint)) (stored : List (Finset QPoint × Bool)) :
    List (Finset QPoint × Bool) :=
  qsigs.foldl (fun st ts => markContourClaimed ts st) stored

/-- The candidate scan as the claim describes it, using the claimed pairing
step (no trace). -/
def scanClaimed {I : Type} [DecidableEq I] (db : ShapeDb I) (outline : ROutline) :
    List (ℕ × ℕ) → Option I
  | [] => none
  | (idx, _) :: rest =>
      match db.entries.get? idx with
      | none => none
      | some (s, contours) =>
          if contours.length ≠ outline.length then scanClaimed db outline rest
          else
            let used := (runPairingClaimed (outline.map points_set)
              (contours.map (fun c => (c, false)))).map (fun t => t.2)
            if used.all (fun b => b) then some s else scanClaimed db outline rest

/-- The scan of `ShapeDb::get` as the claim describes the pairing step, with the
iteration order of the candidate map supplied as `cand`. -/
def ShapeDb.getClaimed {I : Type} [DecidableEq I] (db : ShapeDb I) (outline : ROutline)
    (cand : List (ℕ × ℕ)) : Option I :=
  scanClaimed db outline (sortCandidates cand)

/-! ### Reference extraction (`read_font`) -/

/-- A character map snapshot: `cmap.items()` as `(unicode value, glyph id)`
pairs, in iteration order. -/
abbrev CMapItems := List (ℕ × ℕ)

/-- A glyph-name table snapshot: the `HashMap<String, u16>` name map as its
`(name, glyph id)` pairs, in iteration order. -/
abbrev NameMap := List (String × ℕ)

/-- The font variants `read_font` dispatches over by downcast.  The
character-map and name-table capability surface of the external parser's
types is Modelled from the spec: each variant exposes "the capability subset
it supports (character map presence, name-table presence)".  The source's
`CffFont` branch returns `None` without consulting either capability. -/
inductive ParsedFont where
  | trueType (cmap : Option CMapItems)
  | cff (name_map : NameMap) (cmap : Option CMapItems)
  | openType (name_map : NameMap) (cmap : Option CMapItems)

/-- Models `char::from_u32(n)`: it succeeds exactly on Unicode scalar values. -/
def charFromU32 (n : ℕ) : Bool :=
  decide (n < 1114112) && !(decide (55296 ≤ n) && decide (n < 57344))

/-- Models `fn use_cmap(cmap: &CMap) -> Vec<(GlyphId, SmallString)>`: keep the
pairs whose unicode value is a valid scalar, as `(glyph id, label)`. -/
def use_cmap (cmap : CMapItems) : List (ℕ × String) :=
  cmap.filterMap (fun t =>
    if charFromU32 t.1 then some (t.2, String.mk [Char.ofNat t.1]) else none)

/-- Value of one hexadecimal digit character, else failure. -/
def hexDigitVal (c : Char) : Option ℕ :=
  if '0' ≤ c ∧ c ≤ '9' then some (c.toNat - 48)
  else if 'a' ≤ c ∧ c ≤ 'f' then some (c.toNat - 87)
  else if 'A' ≤ c ∧ c ≤ 'F' then some (c.toNat - 55)
  else none

/-- Accumulate hexadecimal digits with the `u32` overflow check performed at
each step by `from_str_radix`. -/
def parseHexAcc : ℕ → List Char → Option ℕ
  | acc, [] => some acc
  | acc, c :: rest =>
      match hexDigitVal c with
      | none => none
      | some d =>
          if acc * 16 + d < 4294967296 then parseHexAcc (acc * 16 + d) rest else none

/-- Models `u32::from_str_radix(s, 16)` on a digit list: requires at least one
digit. -/
def parseHexDigits (cs : List Char) : Option ℕ :=
  match cs with
  | [] => none
  | _ => parseHexAcc 0 cs

/-- Models `u32::from_str_radix(s, 16).ok()`: an optional sign, then hexadecimal
digits; a `-` sign on the unsigned type survives only for the value zero. -/
def fromStrRadix16 (s : String) : Option ℕ :=
  match s.toList with
  | [] => none
  | c :: rest =>
      if c = '+' then parseHexDigits rest
      else if c = '-' then
        match parseHexDigits rest with
        | some 0 => some 0
        | _ => none
      else parseHexDigits (c :: rest)

/-- The `uniXXXX` fallback of `use_name_map`:
`name.strip_prefix("uni").and_then(from_str_radix 16).and_then(char::from_u32)`. -/
def uniHexLabel (name : String) : Option String :=
  match name.toList with
  | 'u' :: 'n' :: 'i' :: rest =>
      match parseHexDigits rest with
      | none => none
      | some n => if charFromU32 n then some (String.mk [Char.ofNat n]) else none
  | _ => none

/-- Models `fn use_name_map(map: &HashMap<String, u16>)`, with the external
`glyphname_to_unicode` table passed in as `g2u`; unresolved names are
skipped. -/
def use_name_map (g2u : String → Option String) (map : NameMap) : List (ℕ × String) :=
  map.filterMap (fun t =>
    match g2u t.1 with
    | some s => some (t.2, s)
    | none =>
        match uniHexLabel t.1 with
        | some s => some (t.2, s)
        | none => none)

/-- The `list` binding of `read_font` (lines 49-71): which label source is
used for each font variant, including the early `return None`s. -/
def fontLabels (g2u : String → Option String) : ParsedFont → Option (List (ℕ × String))
  | ParsedFont.trueType cmap =>
      match cmap with
      | some cm => some (use_cmap cm)
      | none => none
  | ParsedFont.cff _ _ => none
  | ParsedFont.openType nm cmap =>
      if 0 < nm.length then some (use_name_map g2u nm)
      else
        match cmap with
        | some cm => some (use_cmap cm)
        | none => none

/-- A parsed font object: the variant for `read_font`'s downcasts, plus the
glyph interface (`num_glyphs`, `glyph(id)` returning the glyph's `path`)
used by `read_font` and `check_font`. -/
structure FontFace where
  variant : ParsedFont
  num_glyphs : ℕ
  glyph : ℕ → Option ROutline

/-- Models `pub fn read_font(font) -> Option<ShapeDb<SmallString>>`: pick the label
list per variant, then insert each listed glyph's outline.  The source
unwraps `font.glyph(gid)`; an absent glyph id (which would panic) is
unreachable for ids produced by the font's own tables and modelled by the
empty outline. -/
def read_font (g2u : String → Option String) (font : FontFace) : Option (ShapeDb String) :=
  (fontLabels g2u font.variant).map (fun list =>
    list.foldl (fun db t => db.add_outline ((font.glyph t.1).getD []) t.2) (ShapeDb.new String))

/-- Modelled from the spec: the claimed label-source priority, uniform over
all three variants — a non-empty name table first, else the character map,
else no database.  (The model gives `trueType` no name table because the
source never consults one there; on that variant the claimed order degrades
to the character map.)  Exists only to be compared with `fontLabels`. -/
def fontLabelsClaimed (g2u : String → Option String) : ParsedFont → Option (List (ℕ × String))
  | ParsedFont.trueType cmap =>
      match cmap with
      | some cm => some (use_cmap cm)
      | none => none
  | ParsedFont.cff nm cmap =>
      if 0 < nm.length then some (use_name_map g2u nm)
      else
        match cmap with
        | some cm => some (use_cmap cm)
        | none => none
  | ParsedFont.openType nm cmap =>
      if 0 < nm.length then some (use_name_map g2u nm)
      else
        match cmap with
        | some cm => some (use_cmap cm)
        | none => none

/-! ### Glyph classifier (`check_font`) and `FontDb` -/

/-- Models `HashMap::insert` on the output mapping: overwrite the value under an
existing key, else append. -/
def insertMap {I : Type} (key : ℕ) (v : I) : List (ℕ × I) → List (ℕ × I)
  | [] => [(key, v)]
  | (k, w) :: rest =>
      if k = key then (k, v) :: rest else (k, w) :: insertMap key v rest

/-- The loop body of `check_font` for one glyph id: fetch the glyph; when
its path has at least one contour, query the database and record a returned
label in the mapping. -/
def classifyStep {I : Type} [DecidableEq I] (db : ShapeDb I) (font : FontFace)
    (map : List (ℕ × I)) (i : ℕ) : List (ℕ × I) :=
  match font.glyph i with
  | none => map
  | some path =>
      if 0 < path.length then
        match (db.get path).1 with
        | some s => insertMap i s map
        | none => map
      else map

/-- Models `pub fn check_font(db, ps_name, font, report) -> Option<HashMap<GlyphId,
SmallString>>` (always `Some` in the source): run the classification loop
body for every glyph id below `num_glyphs`. -/
def check_font {I : Type} [DecidableEq I] (db : ShapeDb I) (font : FontFace) : List (ℕ × I) :=
  (List.range font.num_glyphs).foldl (classifyStep db font) []

/-- The informational content of the diagnostic report assembled by
`check_font` with a report requested: the query traces of the non-empty
glyphs, in glyph-id order (the surrounding markup is string formatting
only). -/
def reportEvents (db : ShapeDb String) (font : FontFace) : List (TraceEvent String) :=
  (List.range font.num_glyphs).foldl
    (fun acc i =>
      match font.glyph i with
      | none => acc
      | some path => if 0 < path.length then acc ++ (db.get path).2 else acc) []

/-- Outcome of a call that may abort with a Rust panic (an `unwrap` of `None`). -/
inductive RunResult (α : Type) where
  | ok : α → RunResult α
  | panicked : RunResult α
deriving DecidableEq

/-- The `FontDb` cache:
`cache: RwLock<HashMap<String, Option<Arc<ShapeDb<SmallString>>>>>`, with a
cached `None` recording confirmed absence. -/
structure FontDbState where
  cache : List (String × Option (ShapeDb String))

/-- Models `FontDb::new`: an empty cache. -/
def FontDbState.new : FontDbState := ⟨[]⟩

/-- Models `HashMap::insert` on the cache. -/
def insertCache (name : String) (v : Option (ShapeDb String)) :
    List (String × Option (ShapeDb String)) → List (String × Option (ShapeDb String))
  | [] => [(name, v)]
  | (k, w) :: rest =>
      if k = name then (k, v) :: rest else (k, w) :: insertCache name v rest

/-- Models `fn get_db(&self, ps_name) -> Option<Arc<ShapeDb>>`: serve a cached
outcome (present or confirmed absent); on a cache miss, consult the disk
(`disk name = none` models "no file at `path/name`"; a corrupt file, whose
deserialization panics, is outside this model) and cache the outcome. -/
def get_db (disk : String → Option (ShapeDb String)) (st : FontDbState) (ps_name : String) :
    Option (ShapeDb String) × FontDbState :=
  match lookupA ps_name st.cache with
  | some cached => (cached, st)
  | none =>
      let db := disk ps_name
      (db, ⟨insertCache ps_name db st.cache⟩)

/-- Models `pub fn check_font(&self, ps_name, font)` on `FontDb`: resolve the
database with `?` (absence propagates as `None`), then classify. -/
def FontDb.check_font (disk : String → Option (ShapeDb String)) (st : FontDbState)
    (ps_name : String) (font : FontFace) : Option (List (ℕ × String)) × FontDbState :=
  let r := get_db disk st ps_name
  match r.1 with
  | none => (none, r.2)
  | some db => (some (GlyphMatcher.check_font db font), r.2)

/-- Models `pub fn font_report(&self, ps_name, font) -> String`: the source calls
`self.get_db(ps_name).unwrap()`, so a missing database panics. -/
def FontDb.font_report (disk : String → Option (ShapeDb String)) (st : FontDbState)
    (ps_name : String) (font : FontFace) :
    RunResult (List (TraceEvent String)) × FontDbState :=
  let r := get_db disk st ps_name
  match r.1 with
  | none => (RunResult.panicked, r.2)
  | some db => (RunResult.ok (reportEvents db font), r.2)

/-! ### Helper lemmas: the contour-pairing step -/

theorem markContour_fst {I : Type} (ts : Finset QPoint) (stored : List (Finset QPoint × Bool)) :
    (@markContour I ts stored).1 =
      stored.map (fun t => (t.1, t.2 || decide (ts = t.1))) := by
  induction stored with
  | nil => rfl
  | cons hd tl ih =>
      obtain ⟨rs, u⟩ := hd
      by_cases hu : u = true
      · subst hu
        simp [markContour, ih]
      · simp at hu
        subst hu
        by_cases he : ts = rs
        · subst he
          simp [markContour, ih]
        · simp [markContour, he, ih]

theorem runPairing_fst {I : Type} (qsigs : List (Finset QPoint))
    (stored : List (Finset QPoint × Bool)) :
    (@runPairing I qsigs stored).1 =
      stored.map (fun t => (t.1, t.2 || decide (t.1 ∈ qsigs))) := by
  induction qsigs generalizing stored with
  | nil => simp [runPairing]
  | cons ts rest ih =>
      show (runPairing rest (markContour ts stored).1).1 = _
      rw [ih, markContour_fst, List.map_map]
      apply List.map_congr_left
      intro t _
      simp only [Function.comp_apply, Bool.or_assoc]
      congr 1
      simp only [List.mem_cons, Bool.or_eq_true, decide_eq_true_eq]
      by_cases h1 : ts = t.1 <;> by_cases h2 : t.1 ∈ rest <;>
        simp [h1, h2, eq_comm]

theorem pairing_flags {I : Type} (qsigs contours : List (Finset QPoint)) :
    (@runPairing I qsigs (contours.map (fun c => (c, false)))).1.map (fun t => t.2) =
      contours.map (fun rs => decide (rs ∈ qsigs)) := by
  rw [runPairing_fst, List.map_map, List.map_map]
  apply List.map_congr_left
  intro rs _
  simp

theorem pairing_all_iff {I : Type} (qsigs contours : List (Finset QPoint)) :
    ((@runPairing I qsigs (contours.map (fun c => (c, false)))).1.map
        (fun t => t.2)).all (fun b => b) = true ↔
      ∀ rs ∈ contours, rs ∈ qsigs := by
  rw [pairing_flags]
  simp [List.all_eq_true]

/-! ### Helper lemmas: the inverted index -/

theorem lookupA_pushIdx_self (key : QPoint) (idx : ℕ) (pts : List (QPoint × List ℕ)) :
    lookupA key (pushIdx key idx pts) = some (lookupPts pts key ++ [idx]) := by
  induction pts with
  | nil => simp [pushIdx, lookupA, lookupPts]
  | cons hd tl ih =>
      obtain ⟨k, l⟩ := hd
      by_cases hk : k = key
      · subst hk
        simp [pushIdx, lookupA, lookupPts]
      · simp [pushIdx, lookupA, lookupPts, hk, ih]

theorem lookupA_pushIdx_ne {q key : QPoint} (hne : q ≠ key) (idx : ℕ)
    (pts : List (QPoint × List ℕ)) :
    lookupA q (pushIdx key idx pts) = lookupA q pts := by
  induction pts with
  | nil => simp [pushIdx, lookupA, (Ne.symm hne)]
  | cons hd tl ih =>
      obtain ⟨k, l⟩ := hd
      by_cases hk : k = key
      · subst hk
        simp [pushIdx, lookupA, (Ne.symm hne)]
      · by_cases hq : k = q
        · subst hq
          simp [pushIdx, lookupA, hk]
        · simp [pushIdx, lookupA, hk, hq, ih]

theorem lookupPts_pushIdx_self (key : QPoint) (idx : ℕ) (pts : List (QPoint × List ℕ)) :
    lookupPts (pushIdx key idx pts) key = lookupPts pts key ++ [idx] := by
  simp [lookupPts, lookupA_pushIdx_self key idx pts]

theorem lookupPts_pushIdx_ne {q key : QPoint} (hne : q ≠ key) (idx : ℕ)
    (pts : List (QPoint × List ℕ)) :
    lookupPts (pushIdx key idx pts) q = lookupPts pts q := by
  simp [lookupPts, lookupA_pushIdx_ne hne idx pts]

/-- The map `insertPoints` only ever appends copies of its own index to value lists. -/
theorem lookupPts_insertPoints (idx : ℕ) (pts : List (QPoint × List ℕ)) (seen : Finset QPoint)
    (l : List RPoint) (q : QPoint) :
    ∃ t, lookupPts (insertPoints idx pts seen l) q = lookupPts pts q ++ t ∧
      ∀ j ∈ t, j = idx := by
  induction l generalizing pts seen with
  | nil => exact ⟨[], by simp [insertPoints], by simp⟩
  | cons p rest ih =>
      by_cases hs : quantizeP p ∈ seen
      · simpa [insertPoints, hs] using ih pts seen
      · obtain ⟨t, ht, hall⟩ := ih (pushIdx (quantizeP p) idx pts) (insert (quantizeP p) seen)
        by_cases hq : q = quantizeP p
        · subst hq
          refine ⟨[idx] ++ t, ?_, ?_⟩
          · simp only [insertPoints]
            rw [if_neg hs, ht, lookupPts_pushIdx_self]
            simp
          · intro j hj
            rcases List.mem_append.1 hj with h | h
            · simpa using h
            · exact hall j h
        · refine ⟨t, ?_, hall⟩
          simp only [insertPoints]
          rw [if_neg hs, ht, lookupPts_pushIdx_ne hq]

theorem mem_lookupPts_insertPoints {j : ℕ} {pts : List (QPoint × List ℕ)} (idx : ℕ)
    (seen : Finset QPoint) (l : List RPoint) {q : QPoint} (hj : j ∈ lookupPts pts q) :
    j ∈ lookupPts (insertPoints idx pts seen l) q := by
  obtain ⟨t, ht, -⟩ := lookupPts_insertPoints idx pts seen l q
  rw [ht]
  exact List.mem_append_left t hj

/-- Soundness of `insertPoints`: every key already recorded as seen, and the
key of every point of the remaining list, maps to a list containing `idx`
afterwards. -/
theorem insertPoints_sound (idx : ℕ) (pts : List (QPoint × List ℕ)) (seen : Finset QPoint)
    (l : List RPoint)
    (hseen : ∀ k ∈ seen, idx ∈ lookupPts pts k) :
    ∀ k, (k ∈ seen ∨ ∃ p ∈ l, quantizeP p = k) →
      idx ∈ lookupPts (insertPoints idx pts seen l) k := by
  induction l generalizing pts seen with
  | nil =>
      intro k hk
      rcases hk with hk | ⟨p, hp, -⟩
      · simpa [insertPoints] using hseen k hk
      · exact absurd hp (List.not_mem_nil p)
  | cons p rest ih =>
      intro k hk
      by_cases hs : quantizeP p ∈ seen
      · simp only [insertPoints, if_pos hs]
        refine ih pts seen hseen k ?_
        rcases hk with hk | ⟨p2, hp2, hq⟩
        · exact Or.inl hk
        · rcases List.mem_cons.1 hp2 with rfl | hp2
          · exact Or.inl (hq ▸ hs)
          · exact Or.inr ⟨p2, hp2, hq⟩
      · simp only [insertPoints, if_neg hs]
        refine ih (pushIdx (quantizeP p) idx pts) (insert (quantizeP p) seen) ?_ k ?_
        · intro k2 hk2
          rcases Finset.mem_insert.1 hk2 with rfl | hk2
          · rw [lookupPts_pushIdx_self]
            simp
          · have hne : k2 ≠ quantizeP p := fun h => hs (h ▸ hk2)
            rw [lookupPts_pushIdx_ne hne]
            exact hseen k2 hk2
        · rcases hk with hk | ⟨p2, hp2, hq⟩
          · exact Or.inl (Finset.mem_insert_of_mem hk)
          · rcases List.mem_cons.1 hp2 with rfl | hp2
            · exact Or.inl (hq ▸ Finset.mem_insert_self _ _)
            · exact Or.inr ⟨p2, hp2, hq⟩

/-- Any index found in a value list after `pushIdx` was already there or is
the pushed index. -/
theorem mem_of_mem_pushIdx {j : ℕ} {key : QPoint} {idx : ℕ} {pts : List (QPoint × List ℕ)}
    {p : QPoint × List ℕ} (hp : p ∈ pushIdx key idx pts) (hj : j ∈ p.2) :
    (∃ p2 ∈ pts, j ∈ p2.2) ∨ j = idx := by
  induction pts generalizing p with
  | nil =>
      simp only [pushIdx, List.mem_singleton] at hp
      subst hp
      simp at hj
      exact Or.inr hj
  | cons hd tl ih =>
      obtain ⟨k, l⟩ := hd
      by_cases hk : k = key
      · rw [show pushIdx key idx ((k, l) :: tl) = (k, l ++ [idx]) :: tl by
          simp [pushIdx, hk]] at hp
        cases hp with
        | head =>
            rcases List.mem_append.1 hj with h | h
            · exact Or.inl ⟨(k, l), List.mem_cons_self _ _, h⟩
            · simp at h
              exact Or.inr h
        | tail _ hp => exact Or.inl ⟨p, List.mem_cons_of_mem _ hp, hj⟩
      · rw [show pushIdx key idx ((k, l) :: tl) = (k, l) :: pushIdx key idx tl by
          simp [pushIdx, hk]] at hp
        cases hp with
        | head => exact Or.inl ⟨(k, l), List.mem_cons_self _ _, hj⟩
        | tail _ hp =>
            rcases ih hp hj with ⟨p2, hp2, hj2⟩ | h
            · exact Or.inl ⟨p2, List.mem_cons_of_mem _ hp2, hj2⟩
            · exact Or.inr h

theorem mem_of_mem_insertPoints {j : ℕ} {idx : ℕ} {pts : List (QPoint × List ℕ)}
    {seen : Finset QPoint} {l : List RPoint} {p : QPoint × List ℕ}
    (hp : p ∈ insertPoints idx pts seen l) (hj : j ∈ p.2) :
    (∃ p2 ∈ pts, j ∈ p2.2) ∨ j = idx := by
  induction l generalizing pts seen with
  | nil =>
      simp only [insertPoints] at hp
      exact Or.inl ⟨p, hp, hj⟩
  | cons q rest ih =>
      by_cases hs : quantizeP q ∈ seen
      · simp only [insertPoints, if_pos hs] at hp
        exact ih hp
      · simp only [insertPoints] at hp
        rw [if_neg hs] at hp
        rcases ih hp with ⟨p2, hp2, hj2⟩ | h
        · exact mem_of_mem_pushIdx hp2 hj2
        · exact Or.inr h

theorem pushIdx_values_ne_nil {key : QPoint} {idx : ℕ} {pts : List (QPoint × List ℕ)}
    (h : ∀ p ∈ pts, p.2 ≠ []) : ∀ p ∈ pushIdx key idx pts, p.2 ≠ [] := by
  induction pts with
  | nil =>
      intro p hp
      simp only [pushIdx, List.mem_singleton] at hp
      subst hp
      simp
  | cons hd tl ih =>
      obtain ⟨k, l⟩ := hd
      intro p hp
      by_cases hk : k = key
      · rw [show pushIdx key idx ((k, l) :: tl) = (k, l ++ [idx]) :: tl by
          simp [pushIdx, hk]] at hp
        cases hp with
        | head => simp
        | tail _ hp => exact h p (List.mem_cons_of_mem _ hp)
      · rw [show pushIdx key idx ((k, l) :: tl) = (k, l) :: pushIdx key idx tl by
          simp [pushIdx, hk]] at hp
        cases hp with
        | head => exact h (k, l) (List.mem_cons_self _ _)
        | tail _ hp => exact ih (fun p2 hp2 => h p2 (List.mem_cons_of_mem _ hp2)) p hp

theorem insertPoints_values_ne_nil {idx : ℕ} {pts : List (QPoint × List ℕ)}
    {seen : Finset QPoint} {l : List RPoint}
    (h : ∀ p ∈ pts, p.2 ≠ []) : ∀ p ∈ insertPoints idx pts seen l, p.2 ≠ [] := by
  induction l generalizing pts seen with
  | nil =>
      simpa [insertPoints] using h
  | cons q rest ih =>
      intro p hp
      by_cases hs : quantizeP q ∈ seen
      · simp only [insertPoints, if_pos hs] at hp
        exact ih h p hp
      · simp only [insertPoints] at hp
        rw [if_neg hs] at hp
        exact ih (pushIdx_values_ne_nil h) p hp

/-! ### Helper lemmas: `buildDb` structure and invariants -/

theorem foldl_add_outline_entries {I : Type} (ps : List (ROutline × I)) (db : ShapeDb I) :
    (ps.foldl (fun db p => db.add_outline p.1 p.2) db).entries =
      db.entries ++ ps.map (fun p => (p.2, p.1.map points_set)) := by
  induction ps generalizing db with
  | nil => simp
  | cons hd tl ih =>
      simp only [List.foldl_cons, ih, List.map_cons]
      simp [ShapeDb.add_outline]

theorem buildDb_entries {I : Type} (ps : List (ROutline × I)) :
    (buildDb ps).entries = ps.map (fun p => (p.2, p.1.map points_set)) := by
  simpa [buildDb] using foldl_add_outline_entries ps (ShapeDb.new I)

/-- The running invariant of the database built by `add_outline` calls:
index soundness, index validity, and non-empty value lists. -/
def DbInv {I : Type} (db : ShapeDb I) : Prop :=
  (∀ idx e, db.entries.get? idx = some e →
    ∀ sig ∈ e.2, ∀ q ∈ sig, idx ∈ lookupPts db.points q) ∧
  (∀ p ∈ db.points, ∀ j ∈ p.2, j < db.entries.length) ∧
  (∀ p ∈ db.points, p.2 ≠ [])

theorem dbInv_new {I : Type} : DbInv (ShapeDb.new I) := by
  refine ⟨?_, ?_, ?_⟩ <;> simp [ShapeDb.new]

theorem dbInv_add_outline {I : Type} {db : ShapeDb I} (h : DbInv db)
    (outline : ROutline) (v : I) : DbInv (db.add_outline outline v) := by
  obtain ⟨hsound, hvalid, hne⟩ := h
  refine ⟨?_, ?_, ?_⟩
  · intro idx e hidx sig hsig q hq
    simp only [ShapeDb.add_outline] at hidx ⊢
    rcases Nat.lt_trichotomy idx db.entries.length with hlt | heq | hgt
    · rw [List.get?_append hlt] at hidx
      exact mem_lookupPts_insertPoints _ _ _ (hsound idx e hidx sig hsig q hq)
    · subst heq
      rw [List.get?_concat_length] at hidx
      obtain rfl : e = (v, outline.map points_set) := by
        exact (Option.some_injective _ hidx).symm
      simp only at hsig
      obtain ⟨c, hc, rfl⟩ := List.mem_map.1 hsig
      have hex : ∃ p, p ∈ c ∧ quantizeP p = q := by
        simpa [points_set, List.mem_map] using hq
      obtain ⟨p, hpc, hpq⟩ := hex
      refine insertPoints_sound _ _ _ _ (by simp) _ (Or.inr ⟨p, ?_, hpq⟩)
      exact List.mem_flatten.2 ⟨c, hc, hpc⟩
    · exfalso
      have hn : (db.entries ++ [(v, outline.map points_set)]).get? idx = none := by
        refine List.get?_eq_none.2 ?_
        simp only [List.length_append, List.length_cons, List.length_nil]
        omega
      rw [hn] at hidx
      exact Option.noConfusion hidx
  · intro p hp j hj
    simp only [ShapeDb.add_outline] at hp ⊢
    rcases mem_of_mem_insertPoints hp hj with ⟨p2, hp2, hj2⟩ | rfl
    · have := hvalid p2 hp2 j hj2
      simp only [List.length_append, List.length_cons, List.length_nil]
      omega
    · simp
  · intro p hp
    simp only [ShapeDb.add_outline] at hp
    exact insertPoints_values_ne_nil hne p hp

theorem dbInv_buildDb {I : Type} (ps : List (ROutline × I)) : DbInv (buildDb ps) := by
  have main : ∀ (l : List (ROutline × I)) (db : ShapeDb I), DbInv db →
      DbInv (l.foldl (fun db p => db.add_outline p.1 p.2) db) := by
    intro l
    induction l with
    | nil => intro db h; simpa using h
    | cons hd tl ih =>
        intro db h
        exact ih _ (dbInv_add_outline h hd.1 hd.2)
  exact main ps (ShapeDb.new I) dbInv_new

/-! ### Helper lemmas: the candidate scan of `get` -/

/-- Whether candidate entry `i` passes both checks of the scan: equal
contour count, and every stored contour signature present among the query
contour signatures (the characterization of the pairing step proved in
`pairing_all_iff`). -/
def entryMatches {I : Type} [DecidableEq I] (db : ShapeDb I) (o : ROutline) (i : ℕ) : Bool :=
  match db.entries.get? i with
  | none => false
  | some e => decide (e.2.length = o.length) && decide (∀ rs ∈ e.2, rs ∈ o.map points_set)

/-- On candidate lists whose indices all resolve, the scan returns the value
of the first candidate that passes both checks. -/
theorem scan_fst_eq_find {I : Type} [DecidableEq I] (db : ShapeDb I) (o : ROutline)
    (l : List (ℕ × ℕ)) (hval : ∀ t ∈ l, (db.entries.get? t.1).isSome = true) :
    (scanCandidates db o l).1 =
      (l.find? (fun t => entryMatches db o t.1)).bind
        (fun t => (db.entries.get? t.1).map (fun e => e.1)) := by
  induction l with
  | nil => rfl
  | cons hd tl ih =>
      obtain ⟨idx, n⟩ := hd
      obtain ⟨e, he⟩ := Option.isSome_iff_exists.1 (hval (idx, n) (List.mem_cons_self _ _))
      obtain ⟨s, cs⟩ := e
      have he2 : db.entries.get? idx = some (s, cs) := he
      have ihtl := ih (fun t ht => hval t (List.mem_cons_of_mem _ ht))
      by_cases hlen : cs.length = o.length
      · by_cases hsub : ∀ rs ∈ cs, rs ∈ o.map points_set
        · have hm : (fun t : ℕ × ℕ => entryMatches db o t.1) (idx, n) = true := by
            show entryMatches db o idx = true
            unfold entryMatches
            rw [he2]
            simp only [Bool.and_eq_true, decide_eq_true_eq]
            exact ⟨hlen, hsub⟩
          rw [@List.find?_cons_of_pos _ (fun t : ℕ × ℕ => entryMatches db o t.1) (idx, n) tl hm]
          have hall := (@pairing_all_iff I (o.map points_set) cs).2 hsub
          simp only [scanCandidates, he2]
          rw [if_neg (show ¬ cs.length ≠ o.length from not_not.2 hlen), if_pos hall]
          simp only [Option.some_bind]
          rw [he]
          rfl
        · have hm : (fun t : ℕ × ℕ => entryMatches db o t.1) (idx, n) = false := by
            show entryMatches db o idx = false
            unfold entryMatches
            rw [he2]
            simp only [Bool.and_eq_false_iff, decide_eq_false_iff_not]
            right
            exact hsub
          rw [@List.find?_cons_of_neg _ (fun t : ℕ × ℕ => entryMatches db o t.1) (idx, n) tl (by simp [hm])]
          have hall : ¬ ((@runPairing I (o.map points_set)
              (cs.map (fun c => (c, false)))).1.map (fun t => t.2)).all (fun b => b) = true :=
            fun hall => hsub ((pairing_all_iff (o.map points_set) cs).1 hall)
          simp only [scanCandidates, he2]
          rw [if_neg (show ¬ cs.length ≠ o.length from not_not.2 hlen), if_neg hall]
          exact ihtl
      · have hm : (fun t : ℕ × ℕ => entryMatches db o t.1) (idx, n) = false := by
          show entryMatches db o idx = false
          unfold entryMatches
          rw [he2]
          simp only [Bool.and_eq_false_iff, decide_eq_false_iff_not]
          left
          exact hlen
        rw [@List.find?_cons_of_neg _ (fun t : ℕ × ℕ => entryMatches db o t.1) (idx, n) tl (by simp [hm])]
        simp only [scanCandidates, he2]
        rw [if_pos (show cs.length ≠ o.length from hlen)]
        exact ihtl
theorem sortCandidates_perm (cand : List (ℕ × ℕ)) : (sortCandidates cand).Perm cand :=
  (List.reverse_perm _).trans (List.perm_insertionSort _ cand)

theorem mem_of_lookupA {α β : Type} [DecidableEq α] {k : α} {l : List (α × β)} {v : β}
    (h : lookupA k l = some v) : (k, v) ∈ l := by
  induction l with
  | nil => exact absurd h (by simp [lookupA])
  | cons hd tl ih =>
      obtain ⟨k2, w⟩ := hd
      by_cases hk : k2 = k
      · subst hk
        simp only [lookupA, if_pos rfl] at h
        obtain rfl := Option.some_injective _ h
        exact List.mem_cons_self _ _
      · simp only [lookupA, if_neg hk] at h
        exact List.mem_cons_of_mem _ (ih h)

theorem exists_lookupA_of_mem_lookupPts {pts : List (QPoint × List ℕ)} {k : QPoint} {i : ℕ}
    (h : i ∈ lookupPts pts k) : ∃ l, lookupA k pts = some l ∧ i ∈ l := by
  unfold lookupPts at h
  cases hl : lookupA k pts with
  | none => rw [hl] at h; simp at h
  | some l => rw [hl] at h; exact ⟨l, rfl, h⟩

theorem mem_candIdxs {I : Type} {db : ShapeDb I} {o : ROutline} {i : ℕ} :
    i ∈ candIdxs db o ↔ ∃ k ∈ queryKeys o, i ∈ lookupPts db.points k := by
  simp [candIdxs, List.mem_dedup, List.mem_flatMap]

theorem mem_canonicalCandidates {I : Type} {db : ShapeDb I} {o : ROutline} {t : ℕ × ℕ}
    (h : t ∈ canonicalCandidates db o) : t.1 ∈ candIdxs db o := by
  obtain ⟨i, hi, rfl⟩ := List.mem_map.1 h
  exact hi

theorem canonicalCandidates_mem_of_mem_candIdxs {I : Type} {db : ShapeDb I} {o : ROutline}
    {i : ℕ} (h : i ∈ candIdxs db o) :
    (i, hitCount db o i) ∈ canonicalCandidates db o :=
  List.mem_map.2 ⟨i, h, rfl⟩

theorem mem_dedupKeys {p : RPoint} {l : List RPoint} (hp : p ∈ l) :
    ∀ seen : Finset QPoint, quantizeP p ∈ seen ∨ quantizeP p ∈ dedupKeys seen l := by
  induction l with
  | nil => exact absurd hp (List.not_mem_nil p)
  | cons q rest ih =>
      intro seen
      by_cases hs : quantizeP q ∈ seen
      · rw [show dedupKeys seen (q :: rest) = dedupKeys seen rest by
          simp [dedupKeys, hs]]
        rcases List.mem_cons.1 hp with rfl | hp2
        · exact Or.inl hs
        · exact ih hp2 seen
      · rw [show dedupKeys seen (q :: rest) =
            quantizeP q :: dedupKeys (insert (quantizeP q) seen) rest by
          simp [dedupKeys, hs]]
        rcases List.mem_cons.1 hp with rfl | hp2
        · exact Or.inr (List.mem_cons_self _ _)
        · rcases ih hp2 (insert (quantizeP q) seen) with h | h
          · rcases Finset.mem_insert.1 h with h2 | h2
            · exact Or.inr (h2 ▸ List.mem_cons_self _ _)
            · exact Or.inl h2
          · exact Or.inr (List.mem_cons_of_mem _ h)

theorem mem_queryKeys_of_mem_flatten {p : RPoint} {o : ROutline} (hp : p ∈ o.flatten) :
    quantizeP p ∈ queryKeys o := by
  rcases mem_dedupKeys hp ∅ with h | h
  · exact absurd h (Finset.not_mem_empty _)
  · exact h

/-- Validity of the canonical candidate list for a built database: every
candidate index resolves to an entry. -/
theorem canonical_valid {I : Type} (ps : List (ROutline × I)) (o : ROutline) :
    ∀ t ∈ canonicalCandidates (buildDb ps) o,
      ((buildDb ps).entries.get? t.1).isSome = true := by
  intro t ht
  obtain ⟨k, -, hk⟩ := mem_candIdxs.1 (mem_canonicalCandidates ht)
  obtain ⟨l, hl, hil⟩ := exists_lookupA_of_mem_lookupPts hk
  have hmem := mem_of_lookupA hl
  have hlt : t.1 < (buildDb ps).entries.length :=
    (dbInv_buildDb ps).2.1 (k, l) hmem t.1 hil
  have hne : ¬ ((buildDb ps).entries.get? t.1 = none) := by
    rw [List.get?_eq_none]
    omega
  exact Option.isSome_iff_ne_none.2 hne

/-! ### Helper lemmas: sorted candidate lists with distinct hit counts -/

theorem sorted_distinct_unique :
    ∀ {l₁ l₂ : List (ℕ × ℕ)}, l₁.Perm l₂ →
      l₁.Sorted (fun a b => a.2 ≤ b.2) → l₂.Sorted (fun a b => a.2 ≤ b.2) →
      l₁.Pairwise (fun a b => a.2 ≠ b.2) → l₁ = l₂ := by
  intro l₁
  induction l₁ with
  | nil =>
      intro l₂ hp _ _ _
      exact (hp.nil_eq).symm ▸ rfl
  | cons a t₁ ih =>
      intro l₂ hp hs₁ hs₂ hd₁
      cases l₂ with
      | nil => exact absurd hp.symm.nil_eq (by simp)
      | cons b t₂ =>
          have hab : a = b := by
            by_contra hne
            have ha2 : a ∈ t₂ := by
              rcases List.mem_cons.1 (hp.mem_iff.1 (List.mem_cons_self a t₁)) with h | h
              · exact absurd h hne
              · exact h
            have hb1 : b ∈ t₁ := by
              rcases List.mem_cons.1 (hp.symm.mem_iff.1 (List.mem_cons_self b t₂)) with h | h
              · exact absurd h.symm hne
              · exact h
            have h1 : a.2 ≤ b.2 := (List.pairwise_cons.1 hs₁).1 b hb1
            have h2 : b.2 ≤ a.2 := (List.pairwise_cons.1 hs₂).1 a ha2
            have h3 : a.2 ≠ b.2 := (List.pairwise_cons.1 hd₁).1 b hb1
            omega
          subst hab
          have htp : t₁.Perm t₂ := hp.cons_inv
          rw [ih htp (List.pairwise_cons.1 hs₁).2 (List.pairwise_cons.1 hs₂).2
            (List.pairwise_cons.1 hd₁).2]

/-- With pairwise-distinct hit counts, any two iteration orders of the
candidate map sort to the same list. -/
theorem sortCandidates_eq_of_distinct {cand₁ cand₂ canon : List (ℕ × ℕ)}
    (h₁ : cand₁.Perm canon) (h₂ : cand₂.Perm canon)
    (hd : canon.Pairwise (fun a b => a.2 ≠ b.2)) :
    sortCandidates cand₁ = sortCandidates cand₂ := by
  haveI : IsTotal (ℕ × ℕ) (fun a b => a.2 ≤ b.2) := ⟨fun a b => Nat.le_total a.2 b.2⟩
  haveI : IsTrans (ℕ × ℕ) (fun a b => a.2 ≤ b.2) := ⟨fun _ _ _ => Nat.le_trans⟩
  have hsym : ∀ {x y : ℕ × ℕ}, x.2 ≠ y.2 → y.2 ≠ x.2 := fun h => h.symm
  have hperm : (cand₁.insertionSort (fun a b => a.2 ≤ b.2)).Perm
      (cand₂.insertionSort (fun a b => a.2 ≤ b.2)) :=
    ((List.perm_insertionSort _ cand₁).trans (h₁.trans h₂.symm)).trans
      (List.perm_insertionSort _ cand₂).symm
  have heq : cand₁.insertionSort (fun a b => a.2 ≤ b.2) =
      cand₂.insertionSort (fun a b => a.2 ≤ b.2) :=
    sorted_distinct_unique hperm
      (List.sorted_insertionSort _ cand₁)
      (List.sorted_insertionSort _ cand₂)
      (((List.perm_insertionSort _ cand₁).trans h₁).pairwise_iff hsym |>.2 hd)
  unfold sortCandidates
  rw [heq]

/-! ### Helper lemmas: quantization arithmetic -/

theorem quantize_neg {x : ℚ} (hx : x < 0) : quantize x = 0 := by
  unfold quantize
  have h1 : ⌊x⌋ ≤ 0 := Int.floor_nonpos (le_of_lt hx)
  have h2 : Int.toNat ⌊x⌋ = 0 := Int.toNat_of_nonpos h1
  simp [h2]

theorem quantize_big {x : ℚ} (hx : (65535 : ℚ) < x) : quantize x = 65535 := by
  unfold quantize
  have h1 : (65535 : ℤ) ≤ ⌊x⌋ := Int.le_floor.2 (by exact_mod_cast le_of_lt hx)
  have h2 : 65535 ≤ Int.toNat ⌊x⌋ := by omega
  omega

theorem quantize_of_nonneg_lt {x : ℚ} (h0 : 0 ≤ x) (hlt : x < 65536) :
    (quantize x : ℤ) = ⌊x⌋ := by
  unfold quantize
  have h1 : 0 ≤ ⌊x⌋ := Int.floor_nonneg.2 h0
  have h2 : ⌊x⌋ < 65536 := by
    have := Int.floor_le_floor (le_of_lt hlt)
    have hc : ⌊(65536 : ℚ)⌋ = 65536 := by norm_num
    have hle : ⌊x⌋ ≤ 65536 := by
      rw [← hc]
      exact Int.floor_le_floor (le_of_lt hlt)
    rcases lt_or_eq_of_le hle with h | h
    · exact h
    · exfalso
      have : (65536 : ℚ) ≤ x := by
        have := Int.floor_le x
        rw [h] at this
        exact_mod_cast this
      linarith
  omega

theorem intPart_nonneg_eq_floor {x : ℚ} (h : 0 ≤ x) : intPart x = ⌊x⌋ := by
  simp [intPart, h]

theorem quantize_congr_intPart {x y : ℚ} (h : intPart x = intPart y) :
    quantize x = quantize y := by
  rcases le_or_lt 0 x with hx | hx <;> rcases le_or_lt 0 y with hy | hy
  · have hfl : ⌊x⌋ = ⌊y⌋ := by
      rw [intPart_nonneg_eq_floor hx, intPart_nonneg_eq_floor hy] at h
      exact h
    unfold quantize
    rw [hfl]
  · -- x ≥ 0, y < 0: both integer parts are 0
    have h1 : intPart x = ⌊x⌋ := intPart_nonneg_eq_floor hx
    have h2 : intPart y = ⌈y⌉ := by simp [intPart, not_le.2 hy]
    have hcy : ⌈y⌉ ≤ 0 := Int.ceil_le.2 (by exact_mod_cast hy.le)
    have hfx : 0 ≤ ⌊x⌋ := Int.floor_nonneg.2 hx
    have hz : ⌊x⌋ = 0 := by omega
    have hfy : ⌊y⌋ ≤ 0 := Int.floor_nonpos (le_of_lt hy)
    unfold quantize
    rw [hz]
    have : Int.toNat ⌊y⌋ = 0 := Int.toNat_of_nonpos hfy
    simp [this]
  · have h1 : intPart y = ⌊y⌋ := intPart_nonneg_eq_floor hy
    have h2 : intPart x = ⌈x⌉ := by simp [intPart, not_le.2 hx]
    have hcx : ⌈x⌉ ≤ 0 := Int.ceil_le.2 (by exact_mod_cast hx.le)
    have hfy : 0 ≤ ⌊y⌋ := Int.floor_nonneg.2 hy
    have hz : ⌊y⌋ = 0 := by omega
    have hfx : ⌊x⌋ ≤ 0 := Int.floor_nonpos (le_of_lt hx)
    unfold quantize
    rw [hz]
    have : Int.toNat ⌊x⌋ = 0 := Int.toNat_of_nonpos hfx
    simp [this]
  · have hfx : ⌊x⌋ ≤ 0 := Int.floor_nonpos (le_of_lt hx)
    have hfy : ⌊y⌋ ≤ 0 := Int.floor_nonpos (le_of_lt hy)
    unfold quantize
    rw [Int.toNat_of_nonpos hfx, Int.toNat_of_nonpos hfy]

theorem quantizeP_congr {p q : RPoint} (h1 : intPart p.1 = intPart q.1)
    (h2 : intPart p.2 = intPart q.2) : quantizeP p = quantizeP q := by
  unfold quantizeP
  rw [quantize_congr_intPart h1, quantize_congr_intPart h2]

/-! ### Helper lemmas: quantized-shape congruence of insertion and query -/

theorem points_set_congr {c₁ c₂ : RContour} (h : c₁.map quantizeP = c₂.map quantizeP) :
    points_set c₁ = points_set c₂ := by
  unfold points_set
  rw [h]

theorem insertPoints_congr (idx : ℕ) (pts : List (QPoint × List ℕ)) (seen : Finset QPoint) :
    ∀ {l₁ l₂ : List RPoint}, l₁.map quantizeP = l₂.map quantizeP →
      insertPoints idx pts seen l₁ = insertPoints idx pts seen l₂ := by
  intro l₁
  induction l₁ generalizing pts seen with
  | nil =>
      intro l₂ h
      obtain rfl : l₂ = [] := by
        cases l₂ with
        | nil => rfl
        | cons p r => exact absurd h.symm (by simp)
      rfl
  | cons p r ih =>
      intro l₂ h
      cases l₂ with
      | nil => exact absurd h (by simp)
      | cons p2 r2 =>
          simp only [List.map_cons, List.cons.injEq] at h
          obtain ⟨hp, hr⟩ := h
          simp only [insertPoints, hp]
          by_cases hs : quantizeP p2 ∈ seen
          · rw [if_pos hs, if_pos hs]
            exact ih _ _ hr
          · rw [if_neg hs, if_neg hs]
            exact ih _ _ hr

theorem map_points_set_eta (o : ROutline) :
    o.map points_set = (o.map (fun c => c.map quantizeP)).map List.toFinset := by
  rw [List.map_map]
  rfl

theorem outline_sigs_congr {o₁ o₂ : ROutline}
    (h : o₁.map (fun c => c.map quantizeP) = o₂.map (fun c => c.map quantizeP)) :
    o₁.map points_set = o₂.map points_set := by
  rw [map_points_set_eta, map_points_set_eta, h]

theorem flatten_map_congr {o₁ o₂ : ROutline}
    (h : o₁.map (fun c => c.map quantizeP) = o₂.map (fun c => c.map quantizeP)) :
    o₁.flatten.map quantizeP = o₂.flatten.map quantizeP := by
  rw [List.map_flatten, List.map_flatten, h]

theorem length_congr {o₁ o₂ : ROutline}
    (h : o₁.map (fun c => c.map quantizeP) = o₂.map (fun c => c.map quantizeP)) :
    o₁.length = o₂.length := by
  have := congrArg List.length h
  simpa using this

theorem add_outline_congr {I : Type} (db : ShapeDb I) {o₁ o₂ : ROutline} (v : I)
    (h : o₁.map (fun c => c.map quantizeP) = o₂.map (fun c => c.map quantizeP)) :
    db.add_outline o₁ v = db.add_outline o₂ v := by
  unfold ShapeDb.add_outline
  rw [outline_sigs_congr h, insertPoints_congr _ _ _ (flatten_map_congr h)]

theorem scanCandidates_congr {I : Type} [DecidableEq I] (db : ShapeDb I) {o₁ o₂ : ROutline}
    (h : o₁.map (fun c => c.map quantizeP) = o₂.map (fun c => c.map quantizeP))
    (l : List (ℕ × ℕ)) : scanCandidates db o₁ l = scanCandidates db o₂ l := by
  induction l with
  | nil => rfl
  | cons hd tl ih =>
      obtain ⟨idx, n⟩ := hd
      simp only [scanCandidates]
      cases hge : db.entries.get? idx with
      | none => rfl
      | some e =>
          obtain ⟨s, cs⟩ := e
          rw [length_congr h, outline_sigs_congr h, ih]

theorem getWithOrder_congr {I : Type} [DecidableEq I] (db : ShapeDb I) {o₁ o₂ : ROutline}
    (h : o₁.map (fun c => c.map quantizeP) = o₂.map (fun c => c.map quantizeP))
    (cand : List (ℕ × ℕ)) : db.getWithOrder o₁ cand = db.getWithOrder o₂ cand :=
  scanCandidates_congr db h (sortCandidates cand)

/-! ### Helper lemmas: the classifier fold of `check_font` -/

/-- The label the classifier records for glyph id `i`, when any. -/
def glyphLabel {I : Type} [DecidableEq I] (db : ShapeDb I) (font : FontFace) (i : ℕ) :
    Option I :=
  match font.glyph i with
  | none => none
  | some path => if 0 < path.length then (db.get path).1 else none

theorem insertMap_of_fresh {I : Type} {key : ℕ} {v : I} :
    ∀ {map : List (ℕ × I)}, (∀ p ∈ map, p.1 ≠ key) →
      insertMap key v map = map ++ [(key, v)] := by
  intro map
  induction map with
  | nil => intro; rfl
  | cons hd tl ih =>
      intro h
      obtain ⟨k, w⟩ := hd
      have hk : k ≠ key := h (k, w) (List.mem_cons_self _ _)
      simp only [insertMap, if_neg hk, List.cons_append, List.cons.injEq, true_and]
      exact ih (fun p hp => h p (List.mem_cons_of_mem _ hp))

theorem classifyStep_eq {I : Type} [DecidableEq I] (db : ShapeDb I) (font : FontFace)
    (acc : List (ℕ × I)) (i : ℕ) :
    classifyStep db font acc i =
      match glyphLabel db font i with
      | some s => insertMap i s acc
      | none => acc := by
  unfold classifyStep glyphLabel
  cases font.glyph i with
  | none => rfl
  | some path =>
      dsimp only
      by_cases hlen : 0 < path.length
      · rw [if_pos hlen, if_pos hlen]
      · rw [if_neg hlen, if_neg hlen]

theorem check_font_foldl_eq {I : Type} [DecidableEq I] (db : ShapeDb I) (font : FontFace) :
    ∀ (l : List ℕ) (acc : List (ℕ × I)), (∀ i ∈ l, ∀ p ∈ acc, p.1 ≠ i) → l.Nodup →
      l.foldl (classifyStep db font) acc =
        acc ++ l.filterMap (fun i => (glyphLabel db font i).map (fun s => (i, s))) := by
  intro l
  induction l with
  | nil => intro acc _ _; simp
  | cons i tl ih =>
      intro acc hfresh hnd
      have hnd2 := List.nodup_cons.1 hnd
      rw [List.foldl_cons, classifyStep_eq]
      cases hg : glyphLabel db font i with
      | none =>
          rw [ih acc (fun j hj p hp => hfresh j (List.mem_cons_of_mem _ hj) p hp) hnd2.2]
          simp [hg]
      | some s =>
          dsimp only
          rw [insertMap_of_fresh (fun p hp => hfresh i (List.mem_cons_self _ _) p hp)]
          rw [ih (acc ++ [(i, s)]) ?_ hnd2.2]
          · simp [hg]
          · intro j hj p hp
            rcases List.mem_append.1 hp with hp | hp
            · exact hfresh j (List.mem_cons_of_mem _ hj) p hp
            · simp only [List.mem_singleton] at hp
              subst hp
              intro hc
              exact hnd2.1 ((show i = j from hc) ▸ hj)

theorem check_font_eq_filterMap {I : Type} [DecidableEq I] (db : ShapeDb I) (font : FontFace) :
    check_font db font = (List.range font.num_glyphs).filterMap
      (fun i => (glyphLabel db font i).map (fun s => (i, s))) := by
  unfold check_font
  rw [check_font_foldl_eq db font (List.range font.num_glyphs) [] (by simp) (List.nodup_range _)]
  simp

theorem lookupA_filterMap_nodup {I : Type} (g : ℕ → Option I) :
    ∀ (l : List ℕ), l.Nodup → ∀ i,
      lookupA i (l.filterMap (fun j => (g j).map (fun s => (j, s)))) =
        if i ∈ l then g i else none := by
  intro l
  induction l with
  | nil => intro _ i; simp [lookupA]
  | cons j tl ih =>
      intro hnd i
      have hnd2 := List.nodup_cons.1 hnd
      cases hg : g j with
      | none =>
          rw [show (j :: tl).filterMap (fun j => (g j).map (fun s => (j, s))) =
              tl.filterMap (fun j => (g j).map (fun s => (j, s))) by
            simp [List.filterMap_cons, hg]]
          rw [ih hnd2.2 i]
          by_cases hij : i = j
          · subst hij
            simp [hnd2.1, hg]
          · simp [hij]
      | some s =>
          rw [show (j :: tl).filterMap (fun j => (g j).map (fun s => (j, s))) =
              (j, s) :: tl.filterMap (fun j => (g j).map (fun s => (j, s))) by
            simp [List.filterMap_cons, hg]]
          by_cases hij : i = j
          · subst hij
            simp [lookupA, hg]
          · simp only [lookupA]
            rw [if_neg (fun h => hij (Eq.symm h))]
            rw [ih hnd2.2 i]
            simp [hij]

/-- Membership in the classifier output, characterized. -/
theorem check_font_lookup {I : Type} [DecidableEq I] (db : ShapeDb I) (font : FontFace)
    (i : ℕ) :
    lookupA i (check_font db font) =
      if i < font.num_glyphs then glyphLabel db font i else none := by
  rw [check_font_eq_filterMap]
  rw [lookupA_filterMap_nodup (glyphLabel db font) (List.range font.num_glyphs)
    (List.nodup_range _) i]
  simp [List.mem_range]

theorem lookupA_insertCache_self (name : String) (v : Option (ShapeDb String)) :
    ∀ cache, lookupA name (insertCache name v cache) = some v := by
  intro cache
  induction cache with
  | nil => simp [insertCache, lookupA]
  | cons hd tl ih =>
      obtain ⟨k, w⟩ := hd
      by_cases hk : k = name
      · subst hk
        simp [insertCache, lookupA]
      · simp only [insertCache, if_neg hk, lookupA]
        exact ih

/-! ### Claim theorems -/

/-- C1 (amended): in the contour-pairing step of `ShapeDb::get`, each query
contour marks used every not-yet-used stored contour whose point set equals
its own — possibly several, since the inner loop has no `break` — so the
final used flags mark exactly the stored contours whose signature occurs
among the query signatures; and the candidate scan returns the value of the
first candidate, in iteration order, whose contour count matches and all of
whose stored contours are marked used. -/
theorem c1_contour_pairing {I : Type} [DecidableEq I] :
    (∀ (qsigs stored : List (Finset QPoint)),
      (@runPairing I qsigs (stored.map (fun c => (c, false)))).1.map (fun t => t.2) =
        stored.map (fun rs => decide (rs ∈ qsigs))) ∧
    (∀ (db : ShapeDb I) (o : ROutline) (l : List (ℕ × ℕ)),
      (∀ t ∈ l, (db.entries.get? t.1).isSome = true) →
      (scanCandidates db o l).1 =
        (l.find? (fun t => entryMatches db o t.1)).bind
          (fun t => (db.entries.get? t.1).map (fun e => e.1))) :=
  ⟨fun qsigs stored => pairing_flags qsigs stored,
   fun db o l hval => scan_fst_eq_find db o l hval⟩

/-- Witness for C1: one query contour marks both copies of a duplicated
stored contour, and the scan on a concrete candidate list returns the first
full match. -/
theorem c1_witness :
    ((@runPairing ℕ [points_set [(((0:ℚ)), ((0:ℚ)))]]
        ([points_set [(((0:ℚ)), ((0:ℚ)))], points_set [(((0:ℚ)), ((0:ℚ)))]].map
          (fun c => (c, false)))).1.map (fun t => t.2) =
      [points_set [(((0:ℚ)), ((0:ℚ)))], points_set [(((0:ℚ)), ((0:ℚ)))]].map
        (fun rs => decide (rs ∈ [points_set [(((0:ℚ)), ((0:ℚ)))]]))) ∧
    (scanCandidates (buildDb [([[(((0:ℚ)), ((0:ℚ)))]], (7:ℕ))]) [[(((0:ℚ)), ((0:ℚ)))]]
        [((0:ℕ), (1:ℕ))]).1 =
      (([((0:ℕ), (1:ℕ))].find? (fun t =>
          entryMatches (buildDb [([[(((0:ℚ)), ((0:ℚ)))]], (7:ℕ))])
            [[(((0:ℚ)), ((0:ℚ)))]] t.1)).bind
        (fun t => ((buildDb [([[(((0:ℚ)), ((0:ℚ)))]], (7:ℕ))]).entries.get? t.1).map
          (fun e => e.1))) :=
  ⟨(@c1_contour_pairing ℕ _).1 _ _, (@c1_contour_pairing ℕ _).2 _ _ _ (by decide)⟩

/-- C1 counterexample: the claim's first-unused-match-only greedy (each
query contour claiming at most one stored contour) disagrees with the code.
One query contour marks both equal stored contours used, so the candidate is
accepted although the second query contour matches nothing; the claimed
pairing rejects the same query. -/
theorem c1_counterexample :
    ((@runPairing ℕ [points_set [(((0:ℚ)), ((0:ℚ))), (((2:ℚ)), ((0:ℚ)))]]
        [(points_set [(((0:ℚ)), ((0:ℚ))), (((2:ℚ)), ((0:ℚ)))], false),
         (points_set [(((2:ℚ)), ((0:ℚ))), (((0:ℚ)), ((0:ℚ)))], false)]).1.map
      (fun t => t.2) = [true, true]) ∧
    ((buildDb [([[(((0:ℚ)), ((0:ℚ))), (((2:ℚ)), ((0:ℚ)))],
        [(((2:ℚ)), ((0:ℚ))), (((0:ℚ)), ((0:ℚ)))]], (7:ℕ))]).get
      [[(((0:ℚ)), ((0:ℚ))), (((2:ℚ)), ((0:ℚ)))], [(((5:ℚ)), ((5:ℚ)))]]).1 = some 7 ∧
    (buildDb [([[(((0:ℚ)), ((0:ℚ))), (((2:ℚ)), ((0:ℚ)))],
        [(((2:ℚ)), ((0:ℚ))), (((0:ℚ)), ((0:ℚ)))]], (7:ℕ))]).getClaimed
      [[(((0:ℚ)), ((0:ℚ))), (((2:ℚ)), ((0:ℚ)))], [(((5:ℚ)), ((5:ℚ)))]]
      (canonicalCandidates
        (buildDb [([[(((0:ℚ)), ((0:ℚ))), (((2:ℚ)), ((0:ℚ)))],
          [(((2:ℚ)), ((0:ℚ))), (((0:ℚ)), ((0:ℚ)))]], (7:ℕ))])
        [[(((0:ℚ)), ((0:ℚ))), (((2:ℚ)), ((0:ℚ)))], [(((5:ℚ)), ((5:ℚ)))]]) = none := by
  refine ⟨by decide, by decide, by decide⟩

/-- C2 (amended): with no on-disk database for `name`, `FontDb::check_font`
returns absence and caches the confirmed absence — both on a cache miss and
on a later call that finds the cached absence — while `FontDb::font_report`
panics (it unwraps the absent database) rather than returning absence. -/
theorem c2_absence_cached {disk : String → Option (ShapeDb String)} {st : FontDbState}
    (name : String) (font : FontFace)
    (hdisk : disk name = none)
    (hcache : lookupA name st.cache = none ∨ lookupA name st.cache = some none) :
    ((FontDb.check_font disk st name font).1 = none ∧
      lookupA name (FontDb.check_font disk st name font).2.cache = some none) ∧
    (FontDb.font_report disk st name font).1 = RunResult.panicked := by
  rcases hcache with hc | hc
  · unfold FontDb.check_font FontDb.font_report get_db
    rw [hc, hdisk]
    exact ⟨⟨rfl, lookupA_insertCache_self name none st.cache⟩, rfl⟩
  · unfold FontDb.check_font FontDb.font_report get_db
    rw [hc]
    exact ⟨⟨rfl, hc⟩, rfl⟩

/-- Witness for C2: a first call on an empty cache and a second call on the
resulting state, both returning absence with the absence cached; the report
call panics. -/
theorem c2_witness :
    (((FontDb.check_font (fun _ => none) FontDbState.new "Foo"
        (FontFace.mk (ParsedFont.trueType none) 0 (fun _ => none))).1 = none ∧
      lookupA "Foo" (FontDb.check_font (fun _ => none) FontDbState.new "Foo"
        (FontFace.mk (ParsedFont.trueType none) 0 (fun _ => none))).2.cache = some none) ∧
      (FontDb.font_report (fun _ => none) FontDbState.new "Foo"
        (FontFace.mk (ParsedFont.trueType none) 0 (fun _ => none))).1
        = RunResult.panicked) ∧
    ((FontDb.check_font (fun _ => none)
        (FontDb.check_font (fun _ => none) FontDbState.new "Foo"
          (FontFace.mk (ParsedFont.trueType none) 0 (fun _ => none))).2 "Foo"
        (FontFace.mk (ParsedFont.trueType none) 0 (fun _ => none))).1 = none ∧
      lookupA "Foo" (FontDb.check_font (fun _ => none)
        (FontDb.check_font (fun _ => none) FontDbState.new "Foo"
          (FontFace.mk (ParsedFont.trueType none) 0 (fun _ => none))).2 "Foo"
        (FontFace.mk (ParsedFont.trueType none) 0 (fun _ => none))).2.cache = some none) :=
  ⟨c2_absence_cached "Foo" (FontFace.mk (ParsedFont.trueType none) 0 (fun _ => none))
      rfl (Or.inl (by decide)),
   (c2_absence_cached "Foo" (FontFace.mk (ParsedFont.trueType none) 0 (fun _ => none))
      rfl (Or.inr (by decide))).1⟩

/-- C2 counterexample: the claim — that the report entry point returns
absence rather than crashing when no database file exists — fails:
`font_report` unwraps the absent database and panics on the first call. -/
theorem c2_counterexample :
    (FontDb.font_report (fun _ => none) FontDbState.new "Foo"
      (FontFace.mk (ParsedFont.trueType none) 0 (fun _ => none))).1
      = RunResult.panicked := by decide

/-- C3 (amended): when no two candidate entries have equal hit counts, the
query result and the diagnostic trace are independent of the candidate
map's iteration order; with ties, order-dependence is possible (see the
counterexample). -/
theorem c3_deterministic_no_ties {I : Type} [DecidableEq I] (db : ShapeDb I) (o : ROutline)
    (c₁ c₂ : List (ℕ × ℕ))
    (h₁ : c₁.Perm (canonicalCandidates db o)) (h₂ : c₂.Perm (canonicalCandidates db o))
    (hd : (canonicalCandidates db o).Pairwise (fun a b => a.2 ≠ b.2)) :
    db.getWithOrder o c₁ = db.getWithOrder o c₂ := by
  unfold ShapeDb.getWithOrder
  rw [sortCandidates_eq_of_distinct h₁ h₂ hd]

/-- Witness for C3 at a concrete database with distinct hit counts and two
different iteration orders. -/
theorem c3_witness :
    (buildDb [([[(((0:ℚ)), ((0:ℚ)))]], (0:ℕ)),
        ([[(((0:ℚ)), ((0:ℚ))), (((1:ℚ)), ((1:ℚ)))]], (1:ℕ))]).getWithOrder
      [[(((0:ℚ)), ((0:ℚ))), (((1:ℚ)), ((1:ℚ)))]] [((0:ℕ), (1:ℕ)), ((1:ℕ), (2:ℕ))] =
    (buildDb [([[(((0:ℚ)), ((0:ℚ)))]], (0:ℕ)),
        ([[(((0:ℚ)), ((0:ℚ))), (((1:ℚ)), ((1:ℚ)))]], (1:ℕ))]).getWithOrder
      [[(((0:ℚ)), ((0:ℚ))), (((1:ℚ)), ((1:ℚ)))]] [((1:ℕ), (2:ℕ)), ((0:ℕ), (1:ℕ))] :=
  c3_deterministic_no_ties _ _ _ _ (by decide) (by decide) (by decide)

/-- C3 counterexample: with two tied candidates (identical shapes under two
labels), two admissible iteration orders of the candidate map yield
different results, so the claim of order-independent determinism fails. -/
theorem c3_counterexample :
    ([((0:ℕ), (1:ℕ)), ((1:ℕ), (1:ℕ))].Perm
      (canonicalCandidates (buildDb [([[(((0:ℚ)), ((0:ℚ)))]], (0:ℕ)),
        ([[(((0:ℚ)), ((0:ℚ)))]], (1:ℕ))]) [[(((0:ℚ)), ((0:ℚ)))]])) ∧
    ([((1:ℕ), (1:ℕ)), ((0:ℕ), (1:ℕ))].Perm
      (canonicalCandidates (buildDb [([[(((0:ℚ)), ((0:ℚ)))]], (0:ℕ)),
        ([[(((0:ℚ)), ((0:ℚ)))]], (1:ℕ))]) [[(((0:ℚ)), ((0:ℚ)))]])) ∧
    ((buildDb [([[(((0:ℚ)), ((0:ℚ)))]], (0:ℕ)), ([[(((0:ℚ)), ((0:ℚ)))]], (1:ℕ))]).getWithOrder
        [[(((0:ℚ)), ((0:ℚ)))]] [((0:ℕ), (1:ℕ)), ((1:ℕ), (1:ℕ))]).1 ≠
      ((buildDb [([[(((0:ℚ)), ((0:ℚ)))]], (0:ℕ)), ([[(((0:ℚ)), ((0:ℚ)))]], (1:ℕ))]).getWithOrder
        [[(((0:ℚ)), ((0:ℚ)))]] [((1:ℕ), (1:ℕ)), ((0:ℕ), (1:ℕ))]).1 := by
  refine ⟨by decide, by decide, by decide⟩

/-- C4 (amended): the label-source priority as implemented: OpenType fonts
use a non-empty name table first, else the character map, else yield no
database; TrueType fonts use only the character map; CFF fonts always yield
no database, whatever mapping sources they expose; and `read_font` yields no
database exactly when the selected label source is absent. -/
theorem c4_label_priority (g2u : String → Option String) :
    (∀ cm, fontLabels g2u (ParsedFont.trueType (some cm)) = some (use_cmap cm)) ∧
    (fontLabels g2u (ParsedFont.trueType none) = none) ∧
    (∀ nm cm, fontLabels g2u (ParsedFont.cff nm cm) = none) ∧
    (∀ nm cm, 0 < nm.length →
      fontLabels g2u (ParsedFont.openType nm cm) = some (use_name_map g2u nm)) ∧
    (∀ cm, fontLabels g2u (ParsedFont.openType [] (some cm)) = some (use_cmap cm)) ∧
    (fontLabels g2u (ParsedFont.openType [] none) = none) ∧
    (∀ font : FontFace, read_font g2u font = none ↔ fontLabels g2u font.variant = none) := by
  refine ⟨fun cm => rfl, rfl, fun nm cm => rfl, ?_, fun cm => rfl, rfl, ?_⟩
  · intro nm cm h
    unfold fontLabels
    dsimp only
    rw [if_pos h]
  · intro font
    unfold read_font
    cases fontLabels g2u font.variant <;> simp

/-- Witness for C4: a non-empty OpenType name table beats the character map,
and a CFF font with both sources still yields nothing. -/
theorem c4_witness :
    (fontLabels (fun _ => none) (ParsedFont.openType [("uni0042", 3)] (some [(65, 2)]))
      = some (use_name_map (fun _ => none) [("uni0042", 3)])) ∧
    fontLabels (fun _ => none) (ParsedFont.cff [("uni0041", 1)] (some [(65, 2)])) = none :=
  ⟨(c4_label_priority (fun _ => none)).2.2.2.1 [("uni0042", 3)] (some [(65, 2)]) (by decide),
   (c4_label_priority (fun _ => none)).2.2.1 [("uni0041", 1)] (some [(65, 2)])⟩

/-- C4 counterexample: a CFF font exposing a usable name table (and the
claimed fallback character map) yields no database from `read_font`,
although the claimed priority order would extract labels from it. -/
theorem c4_counterexample :
    read_font (fun _ => none) (FontFace.mk (ParsedFont.cff [("uni0041", 5)] (some [(66, 2)])) 1
      (fun _ => some [[(((0:ℚ)), ((0:ℚ)))]])) = none ∧
    fontLabels (fun _ => none) (ParsedFont.cff [("uni0041", 5)] (some [(66, 2)])) = none ∧
    fontLabelsClaimed (fun _ => none) (ParsedFont.cff [("uni0041", 5)] (some [(66, 2)]))
      = some [(5, "A")] := by
  refine ⟨by decide, by decide, by decide⟩

/-- C5 (amended): inserting `O` under `L` and querying `O` unmodified
returns `L` for every admissible candidate iteration order, provided `O` has
at least one point and no other inserted outline can fully match `O`'s
query: every other entry has a different contour count or some contour
signature absent from `O`'s signatures.  (The claim's original precondition
— corresponding contour signatures pairwise distinct — is not enough; see
the counterexample.) -/
theorem c5_self_match {I : Type} [DecidableEq I] (pre post : List (ROutline × I))
    (O : ROutline) (L : I) (cand : List (ℕ × ℕ))
    (hO : O.flatten ≠ [])
    (hothers : ∀ q ∈ pre ++ post, q.1.length ≠ O.length ∨
      ∃ sig ∈ q.1.map points_set, sig ∉ O.map points_set)
    (hcand : cand.Perm (canonicalCandidates (buildDb (pre ++ (O, L) :: post)) O)) :
    ((buildDb (pre ++ (O, L) :: post)).getWithOrder O cand).1 = some L := by
  set ps := pre ++ (O, L) :: post with hps
  set db := buildDb ps with hdb
  have hget : db.entries.get? pre.length = some (L, O.map points_set) := by
    rw [hdb, buildDb_entries, List.get?_map]
    rw [show ps.get? pre.length = some (O, L) from ?_]
    · rfl
    · rw [hps, List.get?_append_right (le_refl _)]
      simp
  have hmatch : entryMatches db O pre.length = true := by
    unfold entryMatches
    rw [hget]
    simp
  have huniq : ∀ i, entryMatches db O i = true → i = pre.length := by
    intro i hi
    by_contra hne
    unfold entryMatches at hi
    cases hgei : db.entries.get? i with
    | none =>
        rw [hgei] at hi
        simp at hi
    | some e =>
        rw [hgei] at hi
        have hq : ∃ q, q ∈ pre ++ post ∧ e = (q.2, q.1.map points_set) := by
          rw [hdb, buildDb_entries, List.get?_map] at hgei
          cases hpsi : ps.get? i with
          | none =>
              rw [hpsi] at hgei
              exact absurd hgei (by simp)
          | some q =>
              rw [hpsi] at hgei
              obtain rfl : e = (q.2, q.1.map points_set) := by
                simpa using hgei.symm
              refine ⟨q, ?_, rfl⟩
              rcases Nat.lt_trichotomy i pre.length with hlt | heq | hgt
              · rw [hps, List.get?_append hlt] at hpsi
                exact List.mem_append_left _ (List.get?_mem hpsi)
              · exact absurd heq hne
              · rw [hps, List.get?_append_right (by omega)] at hpsi
                have h1 : i - pre.length = (i - pre.length - 1) + 1 := by omega
                rw [h1, List.get?_cons_succ] at hpsi
                exact List.mem_append_right _ (List.get?_mem hpsi)
        obtain ⟨q, hqmem, rfl⟩ := hq
        simp only [Bool.and_eq_true, decide_eq_true_eq] at hi
        rcases hothers q hqmem with hlen | ⟨sig, hsig, hnot⟩
        · exact hlen (by simpa using hi.1)
        · exact hnot (hi.2 sig hsig)
  have hidx : pre.length ∈ candIdxs db O := by
    obtain ⟨p, hp⟩ := List.exists_mem_of_ne_nil _ hO
    obtain ⟨c, hc, hpc⟩ := List.mem_flatten.1 hp
    have hqp : quantizeP p ∈ points_set c := by
      unfold points_set
      rw [List.mem_toFinset]
      exact List.mem_map.2 ⟨p, hpc, rfl⟩
    have hl : pre.length ∈ lookupPts db.points (quantizeP p) :=
      (dbInv_buildDb ps).1 pre.length (L, O.map points_set) hget (points_set c)
        (List.mem_map.2 ⟨c, hc, rfl⟩) (quantizeP p) hqp
    exact mem_candIdxs.2 ⟨quantizeP p, mem_queryKeys_of_mem_flatten hp, hl⟩
  have hin : (pre.length, hitCount db O pre.length) ∈ sortCandidates cand :=
    (sortCandidates_perm cand).mem_iff.2
      (hcand.mem_iff.2 (canonicalCandidates_mem_of_mem_candIdxs hidx))
  have hval : ∀ t ∈ sortCandidates cand, (db.entries.get? t.1).isSome = true :=
    fun t ht =>
      canonical_valid ps O t (hcand.mem_iff.1 ((sortCandidates_perm cand).mem_iff.1 ht))
  unfold ShapeDb.getWithOrder
  rw [scan_fst_eq_find _ _ _ hval]
  have hfs : ((sortCandidates cand).find? (fun t => entryMatches db O t.1)).isSome = true := by
    rw [List.find?_isSome]
    exact ⟨_, hin, hmatch⟩
  obtain ⟨t, ht⟩ := Option.isSome_iff_exists.1 hfs
  rw [ht]
  have hpt := List.find?_some ht
  have ht1 : t.1 = pre.length := huniq t.1 hpt
  simp only [Option.some_bind]
  rw [ht1, hget]
  rfl

/-- Witness for C5 at a concrete one-entry database. -/
theorem c5_witness :
    ((buildDb [([[(((0:ℚ)), ((0:ℚ)))]], (9:ℕ))]).getWithOrder [[(((0:ℚ)), ((0:ℚ)))]]
      (canonicalCandidates (buildDb [([[(((0:ℚ)), ((0:ℚ)))]], (9:ℕ))])
        [[(((0:ℚ)), ((0:ℚ)))]])).1 = some 9 :=
  c5_self_match [] [] [[(((0:ℚ)), ((0:ℚ)))]] 9 _ (by decide) (by decide) (List.Perm.refl _)

/-- C5 counterexample: two entries whose corresponding contour signatures
are pairwise distinct (the claim's precondition), yet querying the first
entry's own outline returns the other label under an admissible candidate
order — here the canonical order itself — because the permuted entry also
fully matches and is tried first. -/
theorem c5_counterexample :
    (points_set [(((0:ℚ)), ((0:ℚ)))] ≠ points_set [(((1:ℚ)), ((1:ℚ)))]) ∧
    ((buildDb [([[(((0:ℚ)), ((0:ℚ)))], [(((1:ℚ)), ((1:ℚ)))]], (0:ℕ)),
        ([[(((1:ℚ)), ((1:ℚ)))], [(((0:ℚ)), ((0:ℚ)))]], (1:ℕ))]).get
      [[(((0:ℚ)), ((0:ℚ)))], [(((1:ℚ)), ((1:ℚ)))]]).1 = some 1 := by
  refine ⟨by decide, by decide⟩

/-- C6: for every query outline whose contour count differs from the stored
contour count of every entry of a database built by `add_outline`,
`ShapeDb::get` returns `None` under every admissible candidate iteration
order, regardless of point overlap. -/
theorem c6_contour_count_guard {I : Type} [DecidableEq I] (ps : List (ROutline × I))
    (o : ROutline) (cand : List (ℕ × ℕ))
    (hcand : cand.Perm (canonicalCandidates (buildDb ps) o))
    (hcount : ∀ q ∈ ps, q.1.length ≠ o.length) :
    ((buildDb ps).getWithOrder o cand).1 = none := by
  have hval : ∀ t ∈ sortCandidates cand, ((buildDb ps).entries.get? t.1).isSome = true :=
    fun t ht => canonical_valid ps o t (hcand.mem_iff.1 ((sortCandidates_perm cand).mem_iff.1 ht))
  unfold ShapeDb.getWithOrder
  rw [scan_fst_eq_find _ _ _ hval]
  have hfind : (sortCandidates cand).find? (fun t => entryMatches (buildDb ps) o t.1) = none := by
    rw [List.find?_eq_none]
    intro t ht
    simp only [Bool.not_eq_true]
    unfold entryMatches
    cases hge : (buildDb ps).entries.get? t.1 with
    | none => rfl
    | some e =>
        have hmem : e ∈ (buildDb ps).entries := List.get?_mem hge
        rw [buildDb_entries] at hmem
        obtain ⟨q, hq, rfl⟩ := List.mem_map.1 hmem
        have : q.1.length ≠ o.length := hcount q hq
        simp only [Bool.and_eq_false_iff, decide_eq_false_iff_not]
        left
        simpa using this
  rw [hfind]
  rfl

/-- Witness for C6 at a concrete database and query. -/
theorem c6_witness :
    ((buildDb [([[(((0:ℚ)), ((0:ℚ)))]], (0:ℕ))]).getWithOrder
      [[(((0:ℚ)), ((0:ℚ)))], [(((1:ℚ)), ((1:ℚ)))]]
      (canonicalCandidates (buildDb [([[(((0:ℚ)), ((0:ℚ)))]], (0:ℕ))])
        [[(((0:ℚ)), ((0:ℚ)))], [(((1:ℚ)), ((1:ℚ)))]])).1 = none :=
  c6_contour_count_guard _ _ _ (List.Perm.refl _) (by decide)

/-- C7: after any sequence of `add_outline` calls starting from
`ShapeDb::new`, every quantized point of every entry's contour signatures is
a key of the inverted index `points` whose value list holds that entry's
index, and every value list in `points` is non-empty. -/
theorem c7_index_soundness {I : Type} (ps : List (ROutline × I)) :
    (∀ idx e, (buildDb ps).entries.get? idx = some e →
      ∀ sig ∈ e.2, ∀ q ∈ sig, ∃ l, lookupA q (buildDb ps).points = some l ∧ idx ∈ l) ∧
    (∀ p ∈ (buildDb ps).points, p.2 ≠ []) := by
  obtain ⟨hs, hv, hn⟩ := dbInv_buildDb ps
  refine ⟨?_, hn⟩
  intro idx e he sig hsig q hq
  exact exists_lookupA_of_mem_lookupPts (hs idx e he sig hsig q hq)

/-- Witness for C7 at a concrete one-entry database. -/
theorem c7_witness :
    (∃ l, lookupA (((0:ℕ)), ((0:ℕ))) (buildDb [([[(((0:ℚ)), ((0:ℚ)))]], (7:ℕ))]).points
        = some l ∧ 0 ∈ l) ∧
    (∀ p ∈ (buildDb [([[(((0:ℚ)), ((0:ℚ)))]], (7:ℕ))]).points, p.2 ≠ []) :=
  ⟨(c7_index_soundness [([[(((0:ℚ)), ((0:ℚ)))]], (7:ℕ))]).1 0
      ((7:ℕ), [points_set [(((0:ℚ)), ((0:ℚ)))]]) (by decide)
      (points_set [(((0:ℚ)), ((0:ℚ)))]) (by decide) (((0:ℕ)), ((0:ℕ))) (by decide),
   (c7_index_soundness [([[(((0:ℚ)), ((0:ℚ)))]], (7:ℕ))]).2⟩

/-- C8: quantization truncates rather than rounds — on the representable
range it equals the integer part obtained by dropping the fractional part —
and two points whose coordinates have equal integer parts quantize to the
same key, so outlines that agree after quantization are treated identically
by insertion (`add_outline`) and query (`get`). -/
theorem c8_truncation {I : Type} [DecidableEq I] :
    (∀ x : ℚ, 0 ≤ x → x < 65536 → (quantize x : ℤ) = intPart x) ∧
    (∀ p q : RPoint, intPart p.1 = intPart q.1 → intPart p.2 = intPart q.2 →
      quantizeP p = quantizeP q) ∧
    (∀ (db : ShapeDb I) (o₁ o₂ : ROutline) (v : I),
      o₁.map (fun c => c.map quantizeP) = o₂.map (fun c => c.map quantizeP) →
      db.add_outline o₁ v = db.add_outline o₂ v) ∧
    (∀ (db : ShapeDb I) (o₁ o₂ : ROutline) (cand : List (ℕ × ℕ)),
      o₁.map (fun c => c.map quantizeP) = o₂.map (fun c => c.map quantizeP) →
      db.getWithOrder o₁ cand = db.getWithOrder o₂ cand) := by
  refine ⟨?_, ?_, ?_, ?_⟩
  · intro x h0 hlt
    rw [quantize_of_nonneg_lt h0 hlt, intPart_nonneg_eq_floor h0]
  · exact fun p q h1 h2 => quantizeP_congr h1 h2
  · exact fun db o₁ o₂ v h => add_outline_congr db v h
  · exact fun db o₁ o₂ cand h => getWithOrder_congr db h cand

/-- Witness for C8: `0.9` truncates to `0`, points differing only in the
fractional part share a key, and fractional-only changes leave both
insertion and query results unchanged. -/
theorem c8_witness :
    ((quantize (9/10) : ℤ) = intPart (9/10) ∧ quantize (9/10) = 0) ∧
    quantizeP (((1/2 : ℚ)), ((3/2 : ℚ))) = quantizeP (((3/4 : ℚ)), ((5/4 : ℚ))) ∧
    (ShapeDb.new ℕ).add_outline [[(((1/2:ℚ)), ((1/2:ℚ)))]] 0 =
      (ShapeDb.new ℕ).add_outline [[(((3/4:ℚ)), ((1/4:ℚ)))]] 0 ∧
    (ShapeDb.new ℕ).getWithOrder [[(((1/2:ℚ)), ((0:ℚ)))]] [] =
      (ShapeDb.new ℕ).getWithOrder [[(((3/4:ℚ)), ((0:ℚ)))]] [] :=
  ⟨⟨(@c8_truncation ℕ _).1 (9/10) (by norm_num) (by norm_num), by norm_num [quantize]⟩,
   (@c8_truncation ℕ _).2.1 _ _ (by norm_num [intPart]) (by norm_num [intPart]),
   (@c8_truncation ℕ _).2.2.1 _ _ _ 0 (by norm_num [quantizeP, quantize]),
   (@c8_truncation ℕ _).2.2.2 _ _ _ [] (by norm_num [quantizeP, quantize])⟩

/-- C9: the classifier visits exactly the glyph ids in `[0, num_glyphs)`; a
glyph id is mapped to a label exactly when its glyph resolves to a non-empty
outline whose database query returns that label, and a glyph with an empty
outline is never classified. -/
theorem c9_classifier {I : Type} [DecidableEq I] (db : ShapeDb I) (font : FontFace) :
    (∀ i s, lookupA i (check_font db font) = some s ↔
      (i < font.num_glyphs ∧ ∃ path, font.glyph i = some path ∧ 0 < path.length ∧
        (db.get path).1 = some s)) ∧
    (∀ i path, font.glyph i = some path → path.length = 0 →
      lookupA i (check_font db font) = none) := by
  have hlook := check_font_lookup db font
  constructor
  · intro i s
    rw [hlook i]
    by_cases hi : i < font.num_glyphs
    · rw [if_pos hi]
      unfold glyphLabel
      cases hg : font.glyph i with
      | none => simp
      | some path =>
          dsimp only
          by_cases hlen : 0 < path.length
          · rw [if_pos hlen]
            constructor
            · intro hq
              exact ⟨hi, path, rfl, hlen, hq⟩
            · rintro ⟨-, path2, hp2, -, hq2⟩
              obtain rfl := Option.some_injective _ hp2
              exact hq2
          · rw [if_neg hlen]
            constructor
            · intro h
              exact absurd h (by simp)
            · rintro ⟨-, path2, hp2, hlen2, -⟩
              obtain rfl := Option.some_injective _ hp2
              exact absurd hlen2 hlen
    · rw [if_neg hi]
      constructor
      · intro h
        exact absurd h (by simp)
      · rintro ⟨hi2, -⟩
        exact absurd hi2 hi
  · intro i path hg hlen
    rw [hlook i]
    by_cases hi : i < font.num_glyphs
    · rw [if_pos hi]
      unfold glyphLabel
      rw [hg]
      dsimp only
      rw [if_neg (by omega)]
    · rw [if_neg hi]

/-- Witness for C9 at a concrete database and two-glyph font. -/
theorem c9_witness :
    lookupA 0 (check_font (buildDb [([[(((0:ℚ)), ((0:ℚ)))]], (3:ℕ))])
      (FontFace.mk (ParsedFont.trueType none) 2
        (fun i => if i = 0 then some [[(((0:ℚ)), ((0:ℚ)))]] else some []))) = some 3 ∧
    lookupA 1 (check_font (buildDb [([[(((0:ℚ)), ((0:ℚ)))]], (3:ℕ))])
      (FontFace.mk (ParsedFont.trueType none) 2
        (fun i => if i = 0 then some [[(((0:ℚ)), ((0:ℚ)))]] else some []))) = none :=
  ⟨((c9_classifier (buildDb [([[(((0:ℚ)), ((0:ℚ)))]], (3:ℕ))])
      (FontFace.mk (ParsedFont.trueType none) 2
        (fun i => if i = 0 then some [[(((0:ℚ)), ((0:ℚ)))]] else some []))).1 0 3).2
    ⟨by decide, [[(((0:ℚ)), ((0:ℚ)))]], by decide, by decide, by decide⟩,
   (c9_classifier (buildDb [([[(((0:ℚ)), ((0:ℚ)))]], (3:ℕ))])
      (FontFace.mk (ParsedFont.trueType none) 2
        (fun i => if i = 0 then some [[(((0:ℚ)), ((0:ℚ)))]] else some []))).2 1 []
    (by decide) (by decide)⟩

/-- C10: the quantizing cast saturates — every negative coordinate maps to
`0` and every coordinate above `65535` maps to `65535` — so distinct
out-of-range points collapse onto the boundary and compare equal. -/
theorem c10_saturation :
    (∀ x : ℚ, x < 0 → quantize x = 0) ∧
    (∀ x : ℚ, 65535 < x → quantize x = 65535) ∧
    (∀ p q : RPoint, p.1 < 0 → q.1 < 0 → 65535 < p.2 → 65535 < q.2 →
      quantizeP p = quantizeP q) := by
  refine ⟨fun x hx => quantize_neg hx, fun x hx => quantize_big hx, ?_⟩
  intro p q h1 h2 h3 h4
  unfold quantizeP
  rw [quantize_neg h1, quantize_neg h2, quantize_big h3, quantize_big h4]

/-- Witness for C10 at concrete out-of-range coordinates. -/
theorem c10_witness :
    quantize (-1) = 0 ∧ quantize 70000 = 65535 ∧
    quantizeP (((-1 : ℚ)), ((70000 : ℚ))) = quantizeP (((-2 : ℚ)), ((70001 : ℚ))) :=
  ⟨c10_saturation.1 (-1) (by norm_num), c10_saturation.2.1 70000 (by norm_num),
   c10_saturation.2.2 _ _ (by norm_num) (by norm_num) (by norm_num) (by norm_num)⟩

end GlyphMatcher
